import Mathlib

/-
Verification of the image-optimizer repository: the Transform Policy
(isSupportedImage, optimizeImage, generateOptimizedKey from src/index),
the S3 Event Handler, and the Bulk Driver (scripts/process-existing-images).
JavaScript strings are modelled as lists of characters; the JS string
operations used by the source (lastIndexOf, substring, toLowerCase,
includes) are embedded with their ECMAScript clamping semantics.
-/

namespace ImageOptimizer

/-- JavaScript strings are modelled as lists of characters. -/
abbrev JSStr := List Char

/-- Models String.prototype.lastIndexOf for a single character: the index of
the last occurrence of `c` in `s`, or -1 when `c` does not occur. -/
def lastIndexOf (s : JSStr) (c : Char) : Int :=
  match s with
  | [] => -1
  | a :: rest =>
    let r := lastIndexOf rest c
    if 0 ≤ r then r + 1
    else if a = c then 0 else -1

/-- Models the ECMAScript index clamp used by String.prototype.substring:
an integer argument is clamped into the range [0, len]. -/
def clampIdx (len : Nat) (i : Int) : Nat :=
  (min (max i 0) (len : Int)).toNat

/-- Models String.prototype.substring(start, stop): both arguments are
clamped into [0, length] and swapped when out of order. -/
def jsSubstring (s : JSStr) (start stop : Int) : JSStr :=
  let a := clampIdx s.length start
  let b := clampIdx s.length stop
  (s.drop (min a b)).take (max a b - min a b)

/-- Models String.prototype.substring(start) with the end argument
defaulted to the string length. -/
def jsSubstringFrom (s : JSStr) (start : Int) : JSStr :=
  jsSubstring s start (s.length : Int)

/-- Fixed maximum output width, from `const MAX_WIDTH = 800`. -/
def MAX_WIDTH : Nat := 800

/-- Fixed encoder quality, from `const QUALITY = 85`. -/
def QUALITY : Nat := 85

/-- The extension allow-list, from `const SUPPORTED_FORMATS = [...]`. -/
def SUPPORTED_FORMATS : List JSStr :=
  [".jpg".toList, ".jpeg".toList, ".png".toList, ".webp".toList,
   ".tiff".toList, ".bmp".toList]

/-- Embeds `isSupportedImage`: lower-case the key, take the substring from
the last dot (computed on the original key), and test membership in the
allow-list (`Array.prototype.includes`). -/
def isSupportedImage (key : JSStr) : Bool :=
  let extension := jsSubstringFrom (key.map Char.toLower) (lastIndexOf key '.')
  decide (extension ∈ SUPPORTED_FORMATS)

/-- Decoded image metadata as reported by the sharp decoder: format name,
alpha-channel flag, and pixel dimensions. -/
structure ImageMeta where
  format : JSStr
  hasAlpha : Bool
  width : Nat
  height : Nat
deriving DecidableEq

/-- Result of `optimizeImage`: the chosen content type and the output
dimensions.  The encoded byte payload of the sharp encoders is not
modelled; the format-selection and resize behaviour is. -/
structure OptimizedImageResult where
  contentType : JSStr
  width : Nat
  height : Nat
deriving DecidableEq

/-- Models `sharp.resize(maxW, null, { fit: "inside", withoutEnlargement:
true })`: an image no wider than `maxW` passes through unchanged; a wider
image is scaled to width `maxW` with the height scaled proportionally and
rounded to the nearest integer (floor of the value plus one half, written
here over naturals as `(2*h*maxW + w) / (2*w)`). -/
def resizeInside (maxW w h : Nat) : Nat × Nat :=
  if w ≤ maxW then (w, h)
  else (maxW, (2 * h * maxW + w) / (2 * w))

/-- Embeds `optimizeImage` at the metadata level: resize within MAX_WIDTH,
then keep PNG when the source format is png and has an alpha channel,
otherwise convert to WebP. -/
def optimizeImage (img : ImageMeta) : OptimizedImageResult :=
  let wh := resizeInside MAX_WIDTH img.width img.height
  if img.format = "png".toList ∧ img.hasAlpha = true then
    { contentType := "image/png".toList, width := wh.1, height := wh.2 }
  else
    { contentType := "image/webp".toList, width := wh.1, height := wh.2 }

/-- Embeds `generateOptimizedKey`: strip the substring before the last dot
(`substring(0, lastIndexOf("."))`) and append the extension matching the
content type; any other content type returns the key unchanged. -/
def generateOptimizedKey (originalKey contentType : JSStr) : JSStr :=
  let lastDotIndex := lastIndexOf originalKey '.'
  let baseName := jsSubstring originalKey 0 lastDotIndex
  if contentType = "image/webp".toList then baseName ++ ".webp".toList
  else if contentType = "image/png".toList then baseName ++ ".png".toList
  else originalKey

/-- The pre-extension base name of a key, exactly as `generateOptimizedKey`
computes it: the substring before the last dot. -/
def baseNameOf (key : JSStr) : JSStr :=
  jsSubstring key 0 (lastIndexOf key '.')

/-- Models `key.replace(/\+/g, " ")`: every plus becomes a space. -/
def plusToSpace (s : JSStr) : JSStr :=
  s.map (fun c => if c = '+' then ' ' else c)

/-- Numeric value of a hexadecimal digit, or none. -/
def hexVal (c : Char) : Option Nat :=
  if '0' ≤ c ∧ c ≤ '9' then some (c.toNat - 48)
  else if 'a' ≤ c ∧ c ≤ 'f' then some (c.toNat - 87)
  else if 'A' ≤ c ∧ c ≤ 'F' then some (c.toNat - 55)
  else none

/-- Byte-level model of decodeURIComponent: a percent followed by two hex
digits decodes to the character with that code; other characters pass
through.  (Multi-byte UTF-8 sequences and the throw on malformed input are
not modelled; no claim depends on them.) -/
def percentDecode : JSStr → JSStr
  | [] => []
  | '%' :: a :: b :: rest =>
    match hexVal a, hexVal b with
    | some x, some y => Char.ofNat (16 * x + y) :: percentDecode rest
    | _, _ => '%' :: percentDecode (a :: b :: rest)
  | c :: rest => c :: percentDecode rest

/-- Embeds the key decoding done by the handler:
`decodeURIComponent(record.s3.object.key.replace(/\+/g, " "))`. -/
def decodeKey (k : JSStr) : JSStr :=
  percentDecode (plusToSpace k)

/-- One record of an S3 event: source bucket name and the raw
(URL-encoded) object key. -/
structure S3EventRecord where
  bucket : JSStr
  key : JSStr
deriving DecidableEq

/-- Environment of the Event Handler: the OPTIMIZED_BUCKET configuration
and oracles for the S3 calls.  `fetch b k` returns the decoded image when
GetObject succeeds with a body that decodes, and none when the fetch
raises, the body is absent, or sharp fails to decode.  `storeOk b k`
tells whether the PutObject call succeeds. -/
structure HandlerEnv where
  optimizedBucket : JSStr
  fetch : JSStr → JSStr → Option ImageMeta
  storeOk : JSStr → JSStr → Bool

/-- A completed PutObject operation: destination bucket, derived key and
content type. -/
structure StoreOp where
  bucket : JSStr
  key : JSStr
  contentType : JSStr
deriving DecidableEq

/-- Observable trace of processing one record: whether a fetch was issued,
the successfully completed store operations, and whether the record's
promise resolved (true) or rejected (false). -/
structure RecordTrace where
  fetched : Bool
  stores : List StoreOp
  ok : Bool
deriving DecidableEq

/-- Embeds the per-record body of the handler: decode the key, skip
unsupported extensions, skip when the source bucket is the optimized
bucket, then fetch, optimize, derive the key and store; a failing fetch
or store rejects the record's promise. -/
def processRecord (env : HandlerEnv) (r : S3EventRecord) : RecordTrace :=
  let sourceKey := decodeKey r.key
  if ¬ isSupportedImage sourceKey then ⟨false, [], true⟩
  else if r.bucket = env.optimizedBucket then ⟨false, [], true⟩
  else
    match env.fetch r.bucket sourceKey with
    | none => ⟨true, [], false⟩
    | some img =>
      let opt := optimizeImage img
      let optimizedKey := generateOptimizedKey sourceKey opt.contentType
      if env.storeOk env.optimizedBucket optimizedKey then
        ⟨true, [⟨env.optimizedBucket, optimizedKey, opt.contentType⟩], true⟩
      else
        ⟨true, [], false⟩

/-- One awaited step of a record's async task: the GetObject await, or a
PutObject attempt (the flag tells whether the store succeeded). -/
inductive TaskStep where
  | fetchStep (bucket key : JSStr)
  | storeStep (op : StoreOp) (ok : Bool)
deriving DecidableEq

/-- The awaited steps of one record's task in program order, paired with
whether its promise finally resolves (true) or rejects (false):
guard-skipped records await nothing and resolve; a failing fetch performs
the fetch await and rejects; otherwise the task awaits the fetch and then
the store attempt, rejecting exactly when the store raises.  This is the
step-level view of the same per-record body that processRecord embeds. -/
def recordTask (env : HandlerEnv) (r : S3EventRecord) : List TaskStep × Bool :=
  let sourceKey := decodeKey r.key
  if ¬ isSupportedImage sourceKey then ([], true)
  else if r.bucket = env.optimizedBucket then ([], true)
  else
    match env.fetch r.bucket sourceKey with
    | none => ([TaskStep.fetchStep r.bucket sourceKey], false)
    | some img =>
      let opt := optimizeImage img
      let optimizedKey := generateOptimizedKey sourceKey opt.contentType
      if env.storeOk env.optimizedBucket optimizedKey then
        ([TaskStep.fetchStep r.bucket sourceKey,
          TaskStep.storeStep ⟨env.optimizedBucket, optimizedKey, opt.contentType⟩ true], true)
      else
        ([TaskStep.fetchStep r.bucket sourceKey,
          TaskStep.storeStep ⟨env.optimizedBucket, optimizedKey, opt.contentType⟩ false], false)

/-- The completed-store effect of one executed step: a successful store
records its operation, everything else records nothing. -/
def stepEffect : TaskStep → List StoreOp
  | TaskStep.storeStep op true => [op]
  | _ => []

/-- State of the Promise.all join during one interleaved execution of the
record tasks: each task's remaining steps and final status, whether the
join has already settled rejected, the stores completed strictly before
that rejection was reported, and all stores completed in the execution. -/
structure JoinState where
  tasks : Nat → List TaskStep × Bool
  settledFailed : Bool
  storesBefore : List StoreOp
  storesAll : List StoreOp

/-- Executes one scheduler pick: task `i` advances by one awaited step (a
no-op when it has already finished).  When the advanced step is the
task's last and the task rejects, the join settles rejected at this
instant — Promise.all's fail-fast rejection on the first failed record.
Pending tasks are not cancelled: later picks still execute their steps,
recorded in storesAll, but only steps executed while the join has not yet
reported failure are recorded in storesBefore. -/
def execStep (st : JoinState) (i : Nat) : JoinState :=
  match (st.tasks i).1 with
  | [] => st
  | s :: rest =>
    { tasks := fun j => if j = i then (rest, (st.tasks i).2) else st.tasks j,
      settledFailed := st.settledFailed || (rest.isEmpty && !(st.tasks i).2),
      storesBefore := st.storesBefore ++ (if st.settledFailed then [] else stepEffect s),
      storesAll := st.storesAll ++ stepEffect s }

/-- Initial join state of one invocation: the tasks created eagerly by
`event.Records.map` (out-of-range indices hold an already finished,
resolved task). -/
def initState (env : HandlerEnv) (records : List S3EventRecord) : JoinState :=
  { tasks := fun i => (records.map (recordTask env)).getD i ([], true),
    settledFailed := false,
    storesBefore := [],
    storesAll := [] }

/-- Embeds `event.Records.map` plus `await Promise.all` under an explicit
interleaving: `sched` lists which record's task advances at each
instant. -/
def runPromiseAll (env : HandlerEnv) (records : List S3EventRecord)
    (sched : List Nat) : JoinState :=
  sched.foldl execStep (initState env records)

/-- A complete execution of an invocation with n records: every task has
run all of its steps. -/
def Drained (n : Nat) (st : JoinState) : Prop :=
  ∀ i, i < n → (st.tasks i).1 = []

instance instDecidableDrained (n : Nat) (st : JoinState) : Decidable (Drained n st) :=
  inferInstanceAs (Decidable (∀ i, i < n → (st.tasks i).1 = []))

/-- Truth value of an Except: ok means the underlying call succeeded,
error means it raised. -/
def exceptOk {ε α : Type} (e : Except ε α) : Bool :=
  match e with
  | .ok _ => true
  | .error _ => false

/-- Embeds `optimizedVersionExists` of the bulk script: generate the webp
and png derived keys, probe the optimized bucket for each in order, and
report true on the first probe that does not raise; a raising probe is
caught and treated as absence. -/
def optimizedVersionExists (probe : JSStr → Except Unit Unit) (originalKey : JSStr) : Bool :=
  let webpKey := generateOptimizedKey originalKey "image/webp".toList
  let pngKey := generateOptimizedKey originalKey "image/png".toList
  exceptOk (probe webpKey) || exceptOk (probe pngKey)

/-- Outcome of one bulk-driver item: counted as processed, skipped, or
errored — matching which ProcessingStats counter it increments. -/
inductive ItemOutcome where
  | processed
  | skipped
  | errored
deriving DecidableEq

/-- Tests the processed outcome. -/
def isProcessed : ItemOutcome → Bool
  | .processed => true
  | _ => false

/-- Tests the skipped outcome. -/
def isSkipped : ItemOutcome → Bool
  | .skipped => true
  | _ => false

/-- Tests the errored outcome. -/
def isErrored : ItemOutcome → Bool
  | .errored => true
  | _ => false

/-- Embeds one item of a bulk batch: skip when skipExisting is on and an
optimized version exists; otherwise run processImageViaLambda or
processImageDirect, each of which catches its own failure and converts it
into the errors counter (`procD`/`procL` are oracles telling whether the
direct/indirect processing of a key raises). -/
def processItem (probe procD procL : JSStr → Except Unit Unit)
    (skipExisting useLambda : Bool) (key : JSStr) : ItemOutcome :=
  if skipExisting && optimizedVersionExists probe key then .skipped
  else
    match (if useLambda then procL key else procD key) with
    | .ok _ => .processed
    | .error _ => .errored

/-- Final counters of a bulk run, plus the number of inter-batch delay
invocations. -/
structure BulkStats where
  processed : Nat
  skipped : Nat
  errors : Nat
  delays : Nat
deriving DecidableEq

/-- Embeds the batching loop of `processExistingImages` as recursion on
the remaining key list, with an explicit iteration bound (`fuel`): each
step takes one batch of `batchSize` keys, processes its items, invokes
the inter-batch delay exactly when more keys remain and the configured
delay is positive, and recurses on the rest.  With `batchSize ≥ 1` a fuel
of the list length is enough, since every iteration consumes at least one
key; the fuel-exhaustion branch is unreachable then. -/
def runBulkAux (probe procD procL : JSStr → Except Unit Unit)
    (skipExisting useLambda : Bool) (batchSize delay : Nat) :
    Nat → List JSStr → BulkStats
  | _, [] => ⟨0, 0, 0, 0⟩
  | 0, _ => ⟨0, 0, 0, 0⟩
  | fuel + 1, keys =>
    let outs := (keys.take batchSize).map
      (processItem probe procD procL skipExisting useLambda)
    let s := runBulkAux probe procD procL skipExisting useLambda batchSize delay
      fuel (keys.drop batchSize)
    ⟨outs.countP isProcessed + s.processed,
     outs.countP isSkipped + s.skipped,
     outs.countP isErrored + s.errors,
     (if batchSize < keys.length ∧ 0 < delay then 1 else 0) + s.delays⟩

/-- The bulk run over a fully accumulated listing of keys. -/
def runBulk (probe procD procL : JSStr → Except Unit Unit)
    (skipExisting useLambda : Bool) (batchSize delay : Nat)
    (keys : List JSStr) : BulkStats :=
  runBulkAux probe procD procL skipExisting useLambda batchSize delay
    keys.length keys

/-- A character absent from a string has no last index. -/
theorem lastIndexOf_eq_neg_one {s : JSStr} {c : Char} (h : c ∉ s) :
    lastIndexOf s c = -1 := by
  induction s with
  | nil => rfl
  | cons a rest ih =>
    simp only [List.mem_cons, not_or] at h
    have h1 : ¬ a = c := fun hac => h.1 hac.symm
    simp [lastIndexOf, ih h.2, h1]

/-- The last index of `c` in `base ++ c :: ext` is the length of `base`
when `c` does not occur in `ext`. -/
theorem lastIndexOf_append_cons (base ext : JSStr) {c : Char} (h : c ∉ ext) :
    lastIndexOf (base ++ c :: ext) c = (base.length : Int) := by
  induction base with
  | nil => simp [lastIndexOf, lastIndexOf_eq_neg_one h]
  | cons a rest ih =>
    simp only [List.cons_append, lastIndexOf, List.append_eq, ih]
    rw [if_pos (Int.natCast_nonneg _)]
    simp [List.length_cons]

/-- Clamping zero gives zero. -/
theorem clampIdx_zero (len : Nat) : clampIdx len 0 = 0 := by
  simp [clampIdx]

/-- Clamping a natural number below the length is the identity. -/
theorem clampIdx_ofNat (len n : Nat) (h : n ≤ len) : clampIdx len (n : Int) = n := by
  simp [clampIdx]
  omega

/-- Clamping minus one gives zero. -/
theorem clampIdx_neg_one (len : Nat) : clampIdx len (-1) = 0 := by
  simp [clampIdx]

/-- substring(0, n) is take n for an in-range natural index. -/
theorem jsSubstring_zero_ofNat (s : JSStr) (n : Nat) (h : n ≤ s.length) :
    jsSubstring s 0 (n : Int) = s.take n := by
  simp [jsSubstring, clampIdx_zero, clampIdx_ofNat _ _ h]

/-- substring(0, -1) is the empty string: the negative index clamps to 0. -/
theorem jsSubstring_zero_neg_one (s : JSStr) : jsSubstring s 0 (-1) = [] := by
  simp [jsSubstring, clampIdx_zero, clampIdx_neg_one]

/-- substring(n) is drop n for an in-range natural index. -/
theorem jsSubstringFrom_ofNat (s : JSStr) (n : Nat) (h : n ≤ s.length) :
    jsSubstringFrom s (n : Int) = s.drop n := by
  simp only [jsSubstringFrom, jsSubstring, clampIdx_ofNat _ _ h,
    clampIdx_ofNat s.length s.length le_rfl, Nat.min_eq_left h, Nat.max_eq_right h]
  rw [← List.length_drop, List.take_length]

/-- The base name of a key decomposed around its last dot is the part
before the dot. -/
theorem baseNameOf_append_cons (base ext : JSStr) (h : '.' ∉ ext) :
    baseNameOf (base ++ '.' :: ext) = base := by
  rw [baseNameOf, lastIndexOf_append_cons base ext h,
    jsSubstring_zero_ofNat _ _ (by simp), List.take_left]

/-- C8. Supported-extension predicate: for every key decomposed as a base
followed by a final dot and a dot-free trailing extension,
isSupportedImage returns true exactly when the lower-cased extension
(including the dot) is in the allow-list SUPPORTED_FORMATS — so all six
allow-listed extensions in any letter case are accepted and every other
extension is rejected. -/
theorem isSupportedImage_allow_list (base ext : JSStr) (hext : '.' ∉ ext) :
    isSupportedImage (base ++ '.' :: ext) = true ↔
      ('.' :: ext.map Char.toLower) ∈ SUPPORTED_FORMATS := by
  have hlow : Char.toLower '.' = '.' := by decide
  rw [isSupportedImage]
  simp only [lastIndexOf_append_cons base ext hext, List.map_append, List.map_cons, hlow]
  rw [jsSubstringFrom_ofNat (base.map Char.toLower ++ '.' :: ext.map Char.toLower)
    base.length (by simp), List.drop_left' (by simp)]
  simp

theorem isSupportedImage_allow_list_witness :
    ('.' ∉ "JPG".toList) ∧
    (isSupportedImage ("photo".toList ++ '.' :: "JPG".toList) = true ↔
      ('.' :: "JPG".toList.map Char.toLower) ∈ SUPPORTED_FORMATS) :=
  ⟨by decide, isSupportedImage_allow_list "photo".toList "JPG".toList (by decide)⟩

/-- C2. Derived-key rule: for a key with a (dot-free) trailing extension,
generateOptimizedKey replaces the extension with .webp for content type
image/webp, with .png for image/png, returns the key unchanged for any
other content type, and in all cases the pre-extension base name of the
result equals the source key's base name. -/
theorem generateOptimizedKey_replaces_extension (base ext : JSStr) (hext : '.' ∉ ext) :
    generateOptimizedKey (base ++ '.' :: ext) "image/webp".toList = base ++ ".webp".toList ∧
    generateOptimizedKey (base ++ '.' :: ext) "image/png".toList = base ++ ".png".toList ∧
    (∀ ct, ct ≠ "image/webp".toList → ct ≠ "image/png".toList →
      generateOptimizedKey (base ++ '.' :: ext) ct = base ++ '.' :: ext) ∧
    (∀ ct, baseNameOf (generateOptimizedKey (base ++ '.' :: ext) ct) = base) := by
  have hbase : jsSubstring (base ++ '.' :: ext) 0 (lastIndexOf (base ++ '.' :: ext) '.') = base :=
    baseNameOf_append_cons base ext hext
  have hwebp : (".webp".toList : JSStr) = '.' :: "webp".toList := by decide
  have hpng : (".png".toList : JSStr) = '.' :: "png".toList := by decide
  refine ⟨?_, ?_, ?_, ?_⟩
  · simp [generateOptimizedKey, hbase]
  · simp [generateOptimizedKey, hbase]
  · intro ct hw hp
    simp only [generateOptimizedKey]
    rw [if_neg hw, if_neg hp]
  · intro ct
    by_cases hw : ct = "image/webp".toList
    · simp only [generateOptimizedKey, if_pos hw, hbase]
      rw [hwebp]
      exact baseNameOf_append_cons base "webp".toList (by decide)
    · by_cases hp : ct = "image/png".toList
      · simp only [generateOptimizedKey, if_neg hw, if_pos hp, hbase]
        rw [hpng]
        exact baseNameOf_append_cons base "png".toList (by decide)
      · simp only [generateOptimizedKey, if_neg hw, if_neg hp]
        exact baseNameOf_append_cons base ext hext

theorem generateOptimizedKey_replaces_extension_witness :
    ('.' ∉ "jpg".toList) ∧
    (generateOptimizedKey ("photo".toList ++ '.' :: "jpg".toList) "image/webp".toList =
        "photo".toList ++ ".webp".toList ∧
      generateOptimizedKey ("photo".toList ++ '.' :: "jpg".toList) "image/png".toList =
        "photo".toList ++ ".png".toList ∧
      (∀ ct, ct ≠ "image/webp".toList → ct ≠ "image/png".toList →
        generateOptimizedKey ("photo".toList ++ '.' :: "jpg".toList) ct =
          "photo".toList ++ '.' :: "jpg".toList) ∧
      (∀ ct, baseNameOf (generateOptimizedKey ("photo".toList ++ '.' :: "jpg".toList) ct) =
        "photo".toList)) :=
  ⟨by decide, generateOptimizedKey_replaces_extension "photo".toList "jpg".toList (by decide)⟩

/-- C10. Implicit edge case: for a key containing no dot, lastIndexOf
returns -1, substring(0, -1) clamps to the empty string, so
generateOptimizedKey discards the whole key name and returns exactly
".webp" for image/webp and ".png" for image/png. -/
theorem generateOptimizedKey_no_dot (key : JSStr) (h : '.' ∉ key) :
    generateOptimizedKey key "image/webp".toList = ".webp".toList ∧
    generateOptimizedKey key "image/png".toList = ".png".toList := by
  have hli : lastIndexOf key '.' = -1 := lastIndexOf_eq_neg_one h
  constructor
  · simp [generateOptimizedKey, hli, jsSubstring_zero_neg_one]
  · simp [generateOptimizedKey, hli, jsSubstring_zero_neg_one]

theorem generateOptimizedKey_no_dot_witness :
    ('.' ∉ "photo".toList) ∧
    (generateOptimizedKey "photo".toList "image/webp".toList = ".webp".toList ∧
      generateOptimizedKey "photo".toList "image/png".toList = ".png".toList) :=
  ⟨by decide, generateOptimizedKey_no_dot "photo".toList (by decide)⟩

/-- C1. Format selection: the output content type is image/png exactly
when the source format is png and the image has an alpha channel, and
image/webp in every other case — the only two possible values. -/
theorem optimizeImage_format_selection (img : ImageMeta) :
    ((optimizeImage img).contentType = "image/png".toList ↔
      (img.format = "png".toList ∧ img.hasAlpha = true)) ∧
    ((optimizeImage img).contentType = "image/webp".toList ↔
      ¬ (img.format = "png".toList ∧ img.hasAlpha = true)) := by
  have hne : ("image/png".toList : JSStr) ≠ "image/webp".toList := by decide
  have hne2 : ("image/webp".toList : JSStr) ≠ "image/png".toList := by decide
  by_cases h : img.format = "png".toList ∧ img.hasAlpha = true
  · have hct : (optimizeImage img).contentType = "image/png".toList := by
      simp only [optimizeImage]
      rw [if_pos h]
    rw [hct]
    exact ⟨⟨fun _ => h, fun _ => rfl⟩, ⟨fun he => absurd he hne, fun hn => absurd h hn⟩⟩
  · have hct : (optimizeImage img).contentType = "image/webp".toList := by
      simp only [optimizeImage]
      rw [if_neg h]
    rw [hct]
    exact ⟨⟨fun he => absurd he hne2, fun hc => absurd hc h⟩, ⟨fun _ => h, fun _ => rfl⟩⟩

/-- Both branches of optimizeImage output the dimensions produced by the
resize step. -/
theorem optimizeImage_dims (img : ImageMeta) :
    (optimizeImage img).width = (resizeInside MAX_WIDTH img.width img.height).1 ∧
    (optimizeImage img).height = (resizeInside MAX_WIDTH img.width img.height).2 := by
  by_cases h : img.format = "png".toList ∧ img.hasAlpha = true
  · constructor
    · simp only [optimizeImage]
      rw [if_pos h]
    · simp only [optimizeImage]
      rw [if_pos h]
  · constructor
    · simp only [optimizeImage]
      rw [if_neg h]
    · simp only [optimizeImage]
      rw [if_neg h]

/-- Resize bounds of the fit-inside, no-enlargement resize: width capped
at the maximum, never upscaled, pass-through when already within the
maximum, and the output height is the proportionally scaled height within
one half unit of rounding (stated multiplied out over naturals). -/
theorem resizeInside_spec (maxW w h : Nat) (hw : 0 < w) :
    (resizeInside maxW w h).1 ≤ maxW ∧
    (resizeInside maxW w h).1 ≤ w ∧
    (w ≤ maxW → (resizeInside maxW w h).1 = w ∧ (resizeInside maxW w h).2 = h) ∧
    2 * (resizeInside maxW w h).2 * w ≤ 2 * h * (resizeInside maxW w h).1 + w ∧
    2 * h * (resizeInside maxW w h).1 ≤ 2 * (resizeInside maxW w h).2 * w + w := by
  by_cases hle : w ≤ maxW
  · have h1 : resizeInside maxW w h = (w, h) := by simp [resizeInside, hle]
    rw [h1]
    exact ⟨hle, le_rfl, fun _ => ⟨rfl, rfl⟩, Nat.le_add_right _ _, Nat.le_add_right _ _⟩
  · have h1 : resizeInside maxW w h = (maxW, (2 * h * maxW + w) / (2 * w)) := by
      simp [resizeInside, hle]
    rw [h1]
    dsimp only
    generalize hq : (2 * h * maxW + w) / (2 * w) = q
    have hdm : 2 * w * q + (2 * h * maxW + w) % (2 * w) = 2 * h * maxW + w := by
      rw [← hq]
      exact Nat.div_add_mod _ _
    have hrlt : (2 * h * maxW + w) % (2 * w) < 2 * w := Nat.mod_lt _ (by omega)
    obtain ⟨r, hdm2, hrlt2⟩ : ∃ r, 2 * w * q + r = 2 * h * maxW + w ∧ r < 2 * w :=
      ⟨_, hdm, hrlt⟩
    refine ⟨le_rfl, by omega, fun hc => absurd hc hle, ?_, ?_⟩ <;>
      nlinarith [hdm2, hrlt2]

/-- C9. Resize bounds of optimizeImage: output width never exceeds
MAX_WIDTH nor the original width, an image already within the maximum
passes through unresized, and the aspect ratio is preserved within
rounding (the output height times the original width is within half the
original width of the original height times the output width). -/
theorem optimizeImage_resize_bounds (img : ImageMeta) (hw : 0 < img.width) :
    (optimizeImage img).width ≤ MAX_WIDTH ∧
    (optimizeImage img).width ≤ img.width ∧
    (img.width ≤ MAX_WIDTH → (optimizeImage img).width = img.width ∧
      (optimizeImage img).height = img.height) ∧
    2 * (optimizeImage img).height * img.width ≤
      2 * img.height * (optimizeImage img).width + img.width ∧
    2 * img.height * (optimizeImage img).width ≤
      2 * (optimizeImage img).height * img.width + img.width := by
  obtain ⟨hw1, hh1⟩ := optimizeImage_dims img
  rw [hw1, hh1]
  exact resizeInside_spec MAX_WIDTH img.width img.height hw

theorem optimizeImage_resize_bounds_witness :
    0 < (ImageMeta.mk "jpeg".toList false 1600 1200).width ∧
    ((optimizeImage ⟨"jpeg".toList, false, 1600, 1200⟩).width ≤ MAX_WIDTH ∧
      (optimizeImage ⟨"jpeg".toList, false, 1600, 1200⟩).width ≤
        (ImageMeta.mk "jpeg".toList false 1600 1200).width ∧
      ((ImageMeta.mk "jpeg".toList false 1600 1200).width ≤ MAX_WIDTH →
        (optimizeImage ⟨"jpeg".toList, false, 1600, 1200⟩).width =
          (ImageMeta.mk "jpeg".toList false 1600 1200).width ∧
        (optimizeImage ⟨"jpeg".toList, false, 1600, 1200⟩).height =
          (ImageMeta.mk "jpeg".toList false 1600 1200).height) ∧
      2 * (optimizeImage ⟨"jpeg".toList, false, 1600, 1200⟩).height *
          (ImageMeta.mk "jpeg".toList false 1600 1200).width ≤
        2 * (ImageMeta.mk "jpeg".toList false 1600 1200).height *
          (optimizeImage ⟨"jpeg".toList, false, 1600, 1200⟩).width +
          (ImageMeta.mk "jpeg".toList false 1600 1200).width ∧
      2 * (ImageMeta.mk "jpeg".toList false 1600 1200).height *
          (optimizeImage ⟨"jpeg".toList, false, 1600, 1200⟩).width ≤
        2 * (optimizeImage ⟨"jpeg".toList, false, 1600, 1200⟩).height *
          (ImageMeta.mk "jpeg".toList false 1600 1200).width +
          (ImageMeta.mk "jpeg".toList false 1600 1200).width) :=
  ⟨by decide, optimizeImage_resize_bounds ⟨"jpeg".toList, false, 1600, 1200⟩ (by decide)⟩

/-- C7. Event Handler guards: a record whose decoded key has an
unsupported extension, or whose source bucket equals the optimized-output
bucket, is skipped without error: no fetch is issued, no store happens,
and the record's promise resolves successfully. -/
theorem handler_guards_skip (env : HandlerEnv) (r : S3EventRecord)
    (h : ¬ isSupportedImage (decodeKey r.key) = true ∨ r.bucket = env.optimizedBucket) :
    (processRecord env r).fetched = false ∧
    (processRecord env r).stores = [] ∧
    (processRecord env r).ok = true := by
  rcases h with h | h
  · simp [processRecord, h]
  · by_cases hs : isSupportedImage (decodeKey r.key) = true
    · simp [processRecord, hs, h]
    · simp [processRecord, hs]

theorem handler_guards_skip_witness :
    (¬ isSupportedImage (decodeKey "a.jpg".toList) = true ∨
      ("opt".toList : JSStr) = (HandlerEnv.mk "opt".toList (fun _ _ => none)
        (fun _ _ => true)).optimizedBucket) ∧
    ((processRecord ⟨"opt".toList, fun _ _ => none, fun _ _ => true⟩
        ⟨"opt".toList, "a.jpg".toList⟩).fetched = false ∧
      (processRecord ⟨"opt".toList, fun _ _ => none, fun _ _ => true⟩
        ⟨"opt".toList, "a.jpg".toList⟩).stores = [] ∧
      (processRecord ⟨"opt".toList, fun _ _ => none, fun _ _ => true⟩
        ⟨"opt".toList, "a.jpg".toList⟩).ok = true) :=
  ⟨by decide,
    handler_guards_skip ⟨"opt".toList, fun _ _ => none, fun _ _ => true⟩
      ⟨"opt".toList, "a.jpg".toList⟩ (by decide)⟩

/-- The step-level task of a record agrees with its trace: same final
status, a rejecting task has at least one step, and the successful store
steps are exactly the trace's completed stores. -/
theorem recordTask_spec (env : HandlerEnv) (r : S3EventRecord) :
    (recordTask env r).2 = (processRecord env r).ok ∧
    ((recordTask env r).2 = false → (recordTask env r).1 ≠ []) ∧
    (∀ op : StoreOp, TaskStep.storeStep op true ∈ (recordTask env r).1 ↔
      op ∈ (processRecord env r).stores) := by
  by_cases h1 : isSupportedImage (decodeKey r.key) = true
  · by_cases h2 : r.bucket = env.optimizedBucket
    · simp [recordTask, processRecord, h1, h2]
    · cases hf : env.fetch r.bucket (decodeKey r.key) with
      | none => simp [recordTask, processRecord, h1, h2, hf]
      | some img =>
        by_cases hs : env.storeOk env.optimizedBucket
            (generateOptimizedKey (decodeKey r.key) (optimizeImage img).contentType) = true
        · simp [recordTask, processRecord, h1, h2, hf, hs]
        · simp [recordTask, processRecord, h1, h2, hf, hs]
  · simp [recordTask, processRecord, h1]

/-- A pick of an already finished task leaves the join state unchanged. -/
theorem execStep_of_nil (st : JoinState) (j : Nat) (h : (st.tasks j).1 = []) :
    execStep st j = st := by
  simp [execStep, h]

/-- Unfolding of one pick of a task with a pending step. -/
theorem execStep_of_cons (st : JoinState) (j : Nat) (s : TaskStep) (rest : List TaskStep)
    (h : (st.tasks j).1 = s :: rest) :
    execStep st j =
      { tasks := fun j2 => if j2 = j then (rest, (st.tasks j).2) else st.tasks j2,
        settledFailed := st.settledFailed || (rest.isEmpty && !(st.tasks j).2),
        storesBefore := st.storesBefore ++ (if st.settledFailed then [] else stepEffect s),
        storesAll := st.storesAll ++ stepEffect s } := by
  simp [execStep, h]

/-- A settled rejection of the join is permanent across picks. -/
theorem execStep_failed_mono (st : JoinState) (j : Nat) (h : st.settledFailed = true) :
    (execStep st j).settledFailed = true := by
  cases hc : (st.tasks j).1 with
  | nil => rw [execStep_of_nil st j hc]; exact h
  | cons s rest => rw [execStep_of_cons st j s rest hc]; simp [h]

/-- Invariant: either the join has settled rejected, or some task that
will reject still has pending steps. -/
theorem execStep_preserves_pending (n : Nat) (st : JoinState) (j : Nat)
    (h : st.settledFailed = true ∨
      ∃ i, i < n ∧ (st.tasks i).2 = false ∧ (st.tasks i).1 ≠ []) :
    (execStep st j).settledFailed = true ∨
      ∃ i, i < n ∧ ((execStep st j).tasks i).2 = false ∧
        ((execStep st j).tasks i).1 ≠ [] := by
  rcases h with h | ⟨i, hin, hok, hne⟩
  · exact Or.inl (execStep_failed_mono st j h)
  · cases hc : (st.tasks j).1 with
    | nil =>
      rw [execStep_of_nil st j hc]
      exact Or.inr ⟨i, hin, hok, hne⟩
    | cons s rest =>
      rw [execStep_of_cons st j s rest hc]
      by_cases hij : i = j
      · subst hij
        cases hr : rest with
        | nil =>
          left
          simp [hr, hok]
        | cons s2 r2 =>
          right
          exact ⟨i, hin, by simp [hok], by simp [hr]⟩
      · right
        exact ⟨i, hin, by simp [hij, hok], by simp [hij, hne]⟩

/-- Invariant: a pending successful store step either stays pending or
its operation has been recorded among the executed stores. -/
theorem execStep_store_mem (st : JoinState) (j i : Nat) (op : StoreOp)
    (h : TaskStep.storeStep op true ∈ (st.tasks i).1 ∨ op ∈ st.storesAll) :
    TaskStep.storeStep op true ∈ ((execStep st j).tasks i).1 ∨
      op ∈ (execStep st j).storesAll := by
  cases hc : (st.tasks j).1 with
  | nil =>
    rw [execStep_of_nil st j hc]
    exact h
  | cons s rest =>
    rw [execStep_of_cons st j s rest hc]
    rcases h with h | h
    · by_cases hij : i = j
      · subst hij
        rw [hc] at h
        rcases List.mem_cons.mp h with h | h
        · right
          simp [← h, stepEffect]
        · left
          simp [h]
      · left
        simp [hij, h]
    · right
      simp [h]

/-- The pending-rejection invariant carried through a whole schedule. -/
theorem foldl_execStep_pending (n : Nat) (sched : List Nat) :
    ∀ st : JoinState,
      (st.settledFailed = true ∨
        ∃ i, i < n ∧ (st.tasks i).2 = false ∧ (st.tasks i).1 ≠ []) →
      ((sched.foldl execStep st).settledFailed = true ∨
        ∃ i, i < n ∧ ((sched.foldl execStep st).tasks i).2 = false ∧
          ((sched.foldl execStep st).tasks i).1 ≠ []) := by
  induction sched with
  | nil => intro st h; exact h
  | cons j rest ih => intro st h; exact ih _ (execStep_preserves_pending n st j h)

/-- The pending-store invariant carried through a whole schedule. -/
theorem foldl_execStep_store (op : StoreOp) (i : Nat) (sched : List Nat) :
    ∀ st : JoinState,
      (TaskStep.storeStep op true ∈ (st.tasks i).1 ∨ op ∈ st.storesAll) →
      (TaskStep.storeStep op true ∈ ((sched.foldl execStep st).tasks i).1 ∨
        op ∈ (sched.foldl execStep st).storesAll) := by
  induction sched with
  | nil => intro st h; exact h
  | cons j rest ih => intro st h; exact ih _ (execStep_store_mem st j i op h)

/-- The initial join state holds exactly the records' tasks. -/
theorem initState_tasks (env : HandlerEnv) (records : List S3EventRecord)
    (i : Nat) (h : i < records.length) :
    (initState env records).tasks i = recordTask env records[i] := by
  simp [initState, List.getD_eq_getElem?_getD, List.getElem?_map,
    List.getElem?_eq_getElem h]

/-- Any complete execution of an invocation with a failing record reports
failure. -/
theorem runPromiseAll_fails (env : HandlerEnv) (records : List S3EventRecord)
    (sched : List Nat)
    (hdr : Drained records.length (runPromiseAll env records sched))
    (hfail : ∃ r ∈ records, (processRecord env r).ok = false) :
    (runPromiseAll env records sched).settledFailed = true := by
  obtain ⟨r, hr, hok⟩ := hfail
  obtain ⟨i, hi, hget⟩ := List.mem_iff_getElem.mp hr
  have hinit : (initState env records).tasks i = recordTask env r := by
    rw [initState_tasks env records i hi, hget]
  obtain ⟨hok2, hne2, _⟩ := recordTask_spec env r
  have h0 : (initState env records).settledFailed = true ∨
      ∃ i2, i2 < records.length ∧ ((initState env records).tasks i2).2 = false ∧
        ((initState env records).tasks i2).1 ≠ [] := by
    right
    refine ⟨i, hi, ?_, ?_⟩
    · rw [hinit, hok2, hok]
    · rw [hinit]
      exact hne2 (by rw [hok2, hok])
  have hP := foldl_execStep_pending records.length sched (initState env records) h0
  rcases hP with h | ⟨i2, hi2, _, hne⟩
  · exact h
  · exact absurd (hdr i2 hi2) hne

/-- C3 (amended). Event Handler join point: in any complete execution of
a multi-record invocation with at least one failing record, the
Promise.all join reports failure, every record's task is started and —
because Promise.all does not cancel pending tasks — every store
completed by a non-failing record is eventually executed (recorded in
storesAll); completion of those stores before the failure is reported is
not part of the guarantee (see the counterexample). -/
theorem handler_join_point (env : HandlerEnv) (records : List S3EventRecord)
    (sched : List Nat)
    (hdr : Drained records.length (runPromiseAll env records sched))
    (hfail : ∃ r ∈ records, (processRecord env r).ok = false) :
    (runPromiseAll env records sched).settledFailed = true ∧
    ∀ r ∈ records, ∀ s ∈ (processRecord env r).stores,
      s ∈ (runPromiseAll env records sched).storesAll := by
  refine ⟨runPromiseAll_fails env records sched hdr hfail, ?_⟩
  intro r hr s hs
  obtain ⟨i, hi, hget⟩ := List.mem_iff_getElem.mp hr
  have hinit : (initState env records).tasks i = recordTask env r := by
    rw [initState_tasks env records i hi, hget]
  obtain ⟨_, _, hstores⟩ := recordTask_spec env r
  have h0 : TaskStep.storeStep s true ∈ ((initState env records).tasks i).1 ∨
      s ∈ (initState env records).storesAll := by
    left
    rw [hinit]
    exact (hstores s).mpr hs
  have hQ := foldl_execStep_store s i sched (initState env records) h0
  rcases hQ with h | h
  · have h2 : TaskStep.storeStep s true ∈ ((runPromiseAll env records sched).tasks i).1 := h
    rw [hdr i hi] at h2
    cases h2
  · exact h

theorem handler_join_point_witness :
    (Drained 2 (runPromiseAll ⟨"opt".toList,
        fun _ k => if k = "a.jpg".toList then some ⟨"jpeg".toList, false, 100, 100⟩ else none,
        fun _ _ => true⟩
      [S3EventRecord.mk "src".toList "a.jpg".toList,
        S3EventRecord.mk "src".toList "b.png".toList] [1, 0, 0]) ∧
      (∃ r ∈ [S3EventRecord.mk "src".toList "a.jpg".toList,
          S3EventRecord.mk "src".toList "b.png".toList],
        (processRecord ⟨"opt".toList,
          fun _ k => if k = "a.jpg".toList then some ⟨"jpeg".toList, false, 100, 100⟩ else none,
          fun _ _ => true⟩ r).ok = false)) ∧
    ((runPromiseAll ⟨"opt".toList,
        fun _ k => if k = "a.jpg".toList then some ⟨"jpeg".toList, false, 100, 100⟩ else none,
        fun _ _ => true⟩
      [S3EventRecord.mk "src".toList "a.jpg".toList,
        S3EventRecord.mk "src".toList "b.png".toList] [1, 0, 0]).settledFailed = true ∧
      ∀ r ∈ [S3EventRecord.mk "src".toList "a.jpg".toList,
          S3EventRecord.mk "src".toList "b.png".toList],
        ∀ s ∈ (processRecord ⟨"opt".toList,
            fun _ k => if k = "a.jpg".toList then some ⟨"jpeg".toList, false, 100, 100⟩ else none,
            fun _ _ => true⟩ r).stores,
          s ∈ (runPromiseAll ⟨"opt".toList,
            fun _ k => if k = "a.jpg".toList then some ⟨"jpeg".toList, false, 100, 100⟩ else none,
            fun _ _ => true⟩
          [S3EventRecord.mk "src".toList "a.jpg".toList,
            S3EventRecord.mk "src".toList "b.png".toList] [1, 0, 0]).storesAll) :=
  ⟨⟨by decide, by decide⟩,
    handler_join_point ⟨"opt".toList,
        fun _ k => if k = "a.jpg".toList then some ⟨"jpeg".toList, false, 100, 100⟩ else none,
        fun _ _ => true⟩
      [S3EventRecord.mk "src".toList "a.jpg".toList,
        S3EventRecord.mk "src".toList "b.png".toList] [1, 0, 0] (by decide) (by decide)⟩

/-- C3 counterexample: the code joins the record tasks with Promise.all
(not Promise.allSettled), which rejects as soon as the first failing
record settles.  In the complete execution below, record b.png fails its
fetch first, the invocation reports failure at that instant, and the
non-failing record a.jpg — whose own processing succeeds and stores
opt/a.webp — has not completed its store before the failure is reported:
its store is absent from storesBefore.  This refutes the claim as
stated, that the handler fails only after all records have been
attempted and that the other records complete their store operations
before the invocation reports failure. -/
theorem handler_join_point_claim_cex :
    (processRecord ⟨"opt".toList,
        fun _ k => if k = "a.jpg".toList then some ⟨"jpeg".toList, false, 100, 100⟩ else none,
        fun _ _ => true⟩
      (S3EventRecord.mk "src".toList "a.jpg".toList)).stores =
      [StoreOp.mk "opt".toList "a.webp".toList "image/webp".toList] ∧
    Drained 2 (runPromiseAll ⟨"opt".toList,
        fun _ k => if k = "a.jpg".toList then some ⟨"jpeg".toList, false, 100, 100⟩ else none,
        fun _ _ => true⟩
      [S3EventRecord.mk "src".toList "a.jpg".toList,
        S3EventRecord.mk "src".toList "b.png".toList] [1, 0, 0]) ∧
    (runPromiseAll ⟨"opt".toList,
        fun _ k => if k = "a.jpg".toList then some ⟨"jpeg".toList, false, 100, 100⟩ else none,
        fun _ _ => true⟩
      [S3EventRecord.mk "src".toList "a.jpg".toList,
        S3EventRecord.mk "src".toList "b.png".toList] [1, 0, 0]).settledFailed = true ∧
    StoreOp.mk "opt".toList "a.webp".toList "image/webp".toList ∉
      (runPromiseAll ⟨"opt".toList,
        fun _ k => if k = "a.jpg".toList then some ⟨"jpeg".toList, false, 100, 100⟩ else none,
        fun _ _ => true⟩
      [S3EventRecord.mk "src".toList "a.jpg".toList,
        S3EventRecord.mk "src".toList "b.png".toList] [1, 0, 0]).storesBefore := by
  decide

/-- countP of a mapped list agrees with the filtered length when the
mapped predicate matches a source predicate pointwise on the list. -/
theorem countP_map_eq_length_filter {α β : Type} (g : α → β) (p : β → Bool) (e : α → Bool)
    (keys : List α) (h : ∀ k ∈ keys, p (g k) = e k) :
    (keys.map g).countP p = (keys.filter e).length := by
  induction keys with
  | nil => simp
  | cons k ks ih =>
    have hk2 : p (g k) = e k := h k (by simp)
    rw [List.map_cons, List.countP_cons, List.filter_cons, hk2,
      ih (fun a ha => h a (by simp [ha]))]
    cases hek : e k <;> simp [hek]

/-- The complement filter and the filter partition the length. -/
theorem length_filter_not {α : Type} (e : α → Bool) (l : List α) :
    (l.filter (fun a => ! e a)).length + (l.filter e).length = l.length := by
  induction l with
  | nil => simp
  | cons a rest ih => cases ha : e a <;> simp [List.filter_cons, ha] <;> omega

/-- The three outcome counters partition any outcome list. -/
theorem countP_outcomes_partition (l : List ItemOutcome) :
    l.countP isProcessed + l.countP isSkipped + l.countP isErrored = l.length := by
  induction l with
  | nil => simp
  | cons a rest ih =>
    cases a <;> simp [List.countP_cons, isProcessed, isSkipped, isErrored] <;> omega

/-- Counter lemma for the bulk loop: with a positive batch size and fuel
at least the list length, the three per-item counters equal the outcome
counts over the flat key list — batching does not change them. -/
theorem runBulkAux_counts (probe procD procL : JSStr → Except Unit Unit)
    (se ul : Bool) (B delay : Nat) (hB : 0 < B) :
    ∀ fuel keys, keys.length ≤ fuel →
      (runBulkAux probe procD procL se ul B delay fuel keys).processed =
        (keys.map (processItem probe procD procL se ul)).countP isProcessed ∧
      (runBulkAux probe procD procL se ul B delay fuel keys).skipped =
        (keys.map (processItem probe procD procL se ul)).countP isSkipped ∧
      (runBulkAux probe procD procL se ul B delay fuel keys).errors =
        (keys.map (processItem probe procD procL se ul)).countP isErrored := by
  intro fuel
  induction fuel with
  | zero =>
    intro keys hk
    have hnil : keys = [] := List.eq_nil_of_length_eq_zero (by omega)
    subst hnil
    simp [runBulkAux]
  | succ fuel ih =>
    intro keys hk
    cases keys with
    | nil => simp [runBulkAux]
    | cons k ks =>
      obtain ⟨ih1, ih2, ih3⟩ := ih ((k :: ks).drop B) (by simp at hk ⊢; omega)
      have hsplit : ∀ p : ItemOutcome → Bool,
          (((k :: ks).take B).map (processItem probe procD procL se ul)).countP p +
            (((k :: ks).drop B).map (processItem probe procD procL se ul)).countP p =
            ((k :: ks).map (processItem probe procD procL se ul)).countP p := by
        intro p
        conv_rhs => rw [← List.take_append_drop B (k :: ks)]
        rw [List.map_append, List.countP_append]
      refine ⟨?_, ?_, ?_⟩
      · simp only [runBulkAux]
        rw [ih1, hsplit isProcessed]
      · simp only [runBulkAux]
        rw [ih2, hsplit isSkipped]
      · simp only [runBulkAux]
        rw [ih3, hsplit isErrored]

/-- Counter lemma restated for runBulk. -/
theorem runBulk_counts (probe procD procL : JSStr → Except Unit Unit)
    (se ul : Bool) (B delay : Nat) (keys : List JSStr) (hB : 0 < B) :
    (runBulk probe procD procL se ul B delay keys).processed =
      (keys.map (processItem probe procD procL se ul)).countP isProcessed ∧
    (runBulk probe procD procL se ul B delay keys).skipped =
      (keys.map (processItem probe procD procL se ul)).countP isSkipped ∧
    (runBulk probe procD procL se ul B delay keys).errors =
      (keys.map (processItem probe procD procL se ul)).countP isErrored := by
  unfold runBulk
  exact runBulkAux_counts probe procD procL se ul B delay hB keys.length keys le_rfl

/-- Delay lemma for the bulk loop: with a positive batch size, a positive
configured delay, and fuel at least the list length, the number of delay
invocations is (L − 1) / B. -/
theorem runBulkAux_delays (probe procD procL : JSStr → Except Unit Unit)
    (se ul : Bool) (B delay : Nat) (hB : 0 < B) (hd : 0 < delay) :
    ∀ fuel keys, keys.length ≤ fuel →
      (runBulkAux probe procD procL se ul B delay fuel keys).delays =
        (keys.length - 1) / B := by
  intro fuel
  induction fuel with
  | zero =>
    intro keys hk
    have hnil : keys = [] := List.eq_nil_of_length_eq_zero (by omega)
    subst hnil
    simp [runBulkAux]
  | succ fuel ih =>
    intro keys hk
    cases keys with
    | nil => simp [runBulkAux]
    | cons k ks =>
      have hrec := ih ((k :: ks).drop B) (by simp at hk ⊢; omega)
      simp only [runBulkAux, hrec, List.length_drop]
      by_cases hBL : B < (k :: ks).length
      · rw [if_pos ⟨hBL, hd⟩]
        have h2 : (k :: ks).length - 1 = ((k :: ks).length - B - 1) + B := by omega
        rw [h2, Nat.add_div_right _ hB]
        omega
      · rw [if_neg (fun hc => hBL hc.1)]
        rw [Nat.div_eq_of_lt (by omega), Nat.div_eq_of_lt (by omega)]

/-- C4. Bulk Driver skip-if-optimized: with skipExisting enabled, every
listed item is checked against the optimized bucket through the webp and
png derived keys, an item with either probe succeeding is counted skipped
and not processed, a probe whose two attempts both raise yields false
(treated as absence, never propagated), and when every non-skipped item
processes successfully a listing of N keys of which K have an existing
optimized version gives exactly K skipped, N − K processed and no
errors. -/
theorem bulk_skip_if_optimized (probe procD procL : JSStr → Except Unit Unit)
    (ul : Bool) (B delay : Nat) (keys : List JSStr) (hB : 0 < B)
    (hok : ∀ k ∈ keys, exceptOk (if ul then procL k else procD k) = true) :
    (runBulk probe procD procL true ul B delay keys).skipped =
      (keys.filter (fun k => optimizedVersionExists probe k)).length ∧
    (runBulk probe procD procL true ul B delay keys).processed =
      keys.length - (keys.filter (fun k => optimizedVersionExists probe k)).length ∧
    (runBulk probe procD procL true ul B delay keys).errors = 0 ∧
    (∀ k, probe (generateOptimizedKey k "image/webp".toList) = Except.error () →
      probe (generateOptimizedKey k "image/png".toList) = Except.error () →
      optimizedVersionExists probe k = false) := by
  obtain ⟨h1, h2, h3⟩ := runBulk_counts probe procD procL true ul B delay keys hB
  have hout : ∀ k ∈ keys, processItem probe procD procL true ul k =
      (if optimizedVersionExists probe k then ItemOutcome.skipped
       else ItemOutcome.processed) := by
    intro k hk
    cases he : optimizedVersionExists probe k
    · have hko := hok k hk
      cases hpc : (if ul then procL k else procD k) with
      | ok u => simp [processItem, he, hpc]
      | error e =>
        rw [hpc] at hko
        simp [exceptOk] at hko
    · simp [processItem, he]
  have hskip : (runBulk probe procD procL true ul B delay keys).skipped =
      (keys.filter (fun k => optimizedVersionExists probe k)).length := by
    rw [h2]
    apply countP_map_eq_length_filter
    intro k hk
    rw [hout k hk]
    cases he : optimizedVersionExists probe k <;> simp [he, isSkipped]
  refine ⟨hskip, ?_, ?_, ?_⟩
  · rw [h1]
    rw [countP_map_eq_length_filter
      (processItem probe procD procL true ul) isProcessed
      (fun k => ! optimizedVersionExists probe k) keys ?_]
    · have hpart := length_filter_not (fun k => optimizedVersionExists probe k) keys
      omega
    · intro k hk
      rw [hout k hk]
      cases he : optimizedVersionExists probe k <;> simp [he, isProcessed]
  · rw [h3]
    rw [countP_map_eq_length_filter
      (processItem probe procD procL true ul) isErrored (fun _ => false) keys ?_]
    · simp
    · intro k hk
      rw [hout k hk]
      cases he : optimizedVersionExists probe k <;> simp [he, isErrored]
  · intro k hw hp
    simp only [optimizedVersionExists]
    rw [hw, hp]
    rfl

theorem bulk_skip_if_optimized_witness :
    (0 < 2 ∧ ∀ k ∈ ["a.jpg".toList, "b.jpg".toList, "c.jpg".toList],
      exceptOk (if false then (fun _ : JSStr => (Except.ok () : Except Unit Unit)) k
        else (fun _ : JSStr => (Except.ok () : Except Unit Unit)) k) = true) ∧
    ((runBulk (fun key => if key = "a.webp".toList then Except.ok () else Except.error ())
        (fun _ => Except.ok ()) (fun _ => Except.ok ()) true false 2 500
        ["a.jpg".toList, "b.jpg".toList, "c.jpg".toList]).skipped =
      (["a.jpg".toList, "b.jpg".toList, "c.jpg".toList].filter
        (fun k => optimizedVersionExists
          (fun key => if key = "a.webp".toList then Except.ok () else Except.error ()) k)).length ∧
      (runBulk (fun key => if key = "a.webp".toList then Except.ok () else Except.error ())
        (fun _ => Except.ok ()) (fun _ => Except.ok ()) true false 2 500
        ["a.jpg".toList, "b.jpg".toList, "c.jpg".toList]).processed =
      ["a.jpg".toList, "b.jpg".toList, "c.jpg".toList].length -
        (["a.jpg".toList, "b.jpg".toList, "c.jpg".toList].filter
          (fun k => optimizedVersionExists
            (fun key => if key = "a.webp".toList then Except.ok () else Except.error ()) k)).length ∧
      (runBulk (fun key => if key = "a.webp".toList then Except.ok () else Except.error ())
        (fun _ => Except.ok ()) (fun _ => Except.ok ()) true false 2 500
        ["a.jpg".toList, "b.jpg".toList, "c.jpg".toList]).errors = 0 ∧
      (∀ k, (fun key => if key = "a.webp".toList then Except.ok () else Except.error ())
          (generateOptimizedKey k "image/webp".toList) = Except.error () →
        (fun key => if key = "a.webp".toList then Except.ok () else Except.error ())
          (generateOptimizedKey k "image/png".toList) = Except.error () →
        optimizedVersionExists
          (fun key => if key = "a.webp".toList then Except.ok () else Except.error ()) k = false)) :=
  ⟨⟨by decide, by decide⟩,
    bulk_skip_if_optimized
      (fun key => if key = "a.webp".toList then Except.ok () else Except.error ())
      (fun _ => Except.ok ()) (fun _ => Except.ok ()) false 2 500
      ["a.jpg".toList, "b.jpg".toList, "c.jpg".toList] (by decide) (by decide)⟩

/-- C5 (amended). Bulk Driver batching delays: for every run with batch
size B ≥ 1 and a positive configured inter-batch delay, over a listing of
L keys the delay is invoked exactly ceil(L/B) − 1 times (written over
naturals as (L + B − 1) / B − 1): once after every batch except the
final one, never after the final batch. -/
theorem bulk_delay_count (probe procD procL : JSStr → Except Unit Unit)
    (se ul : Bool) (B delay : Nat) (keys : List JSStr)
    (hB : 0 < B) (hd : 0 < delay) :
    (runBulk probe procD procL se ul B delay keys).delays =
      (keys.length + B - 1) / B - 1 := by
  rw [runBulk,
    runBulkAux_delays probe procD procL se ul B delay hB hd keys.length keys le_rfl]
  cases hL : keys.length with
  | zero =>
    have e1 : (0 + B - 1) / B = 0 := Nat.div_eq_of_lt (by omega)
    have e2 : ((0 : Nat) - 1) / B = 0 := Nat.div_eq_of_lt (by omega)
    rw [e1, e2]
  | succ n =>
    have e1 : n + 1 + B - 1 = n + B := by omega
    have e2 : n + 1 - 1 = n := by omega
    rw [e1, e2, Nat.add_div_right _ hB, Nat.add_sub_cancel]

theorem bulk_delay_count_witness :
    (0 < 2 ∧ 0 < 500) ∧
    (runBulk (fun _ => Except.error ()) (fun _ => Except.ok ()) (fun _ => Except.ok ())
        false false 2 500
        ["a.jpg".toList, "b.jpg".toList, "c.jpg".toList, "d.jpg".toList, "e.jpg".toList]).delays =
      (["a.jpg".toList, "b.jpg".toList, "c.jpg".toList, "d.jpg".toList,
        "e.jpg".toList].length + 2 - 1) / 2 - 1 :=
  ⟨⟨by decide, by decide⟩,
    bulk_delay_count (fun _ => Except.error ()) (fun _ => Except.ok ())
      (fun _ => Except.ok ()) false false 2 500
      ["a.jpg".toList, "b.jpg".toList, "c.jpg".toList, "d.jpg".toList, "e.jpg".toList]
      (by decide) (by decide)⟩

/-- C5 counterexample: the claim as stated quantifies over every run, but
the code only invokes the delay when the configured delay is positive
(`delayBetweenBatches > 0`): a run with batch size 1, configured delay 0
and two listed keys performs 0 delay invocations while
ceil(2/1) − 1 = 1. -/
theorem bulk_delay_count_claim_cex :
    ¬ ((runBulk (fun _ => Except.error ()) (fun _ => Except.ok ()) (fun _ => Except.ok ())
        false false 1 0 ["a.jpg".toList, "b.jpg".toList]).delays =
      (["a.jpg".toList, "b.jpg".toList].length + 1 - 1) / 1 - 1) := by
  decide

/-- C6. Bulk Driver error containment: an item is counted in the errors
counter exactly when it is not skipped and its (direct or indirect)
processing raises — the error is caught in the item's own worker — and
the run always completes with every listed item accounted for in exactly
one of the processed/skipped/errors counters, however many items fail. -/
theorem bulk_error_containment (probe procD procL : JSStr → Except Unit Unit)
    (se ul : Bool) (B delay : Nat) (keys : List JSStr) (hB : 0 < B) :
    (runBulk probe procD procL se ul B delay keys).errors =
      (keys.filter (fun k => !(se && optimizedVersionExists probe k) &&
        !(exceptOk (if ul then procL k else procD k)))).length ∧
    (runBulk probe procD procL se ul B delay keys).processed +
      (runBulk probe procD procL se ul B delay keys).skipped +
      (runBulk probe procD procL se ul B delay keys).errors = keys.length := by
  obtain ⟨h1, h2, h3⟩ := runBulk_counts probe procD procL se ul B delay keys hB
  constructor
  · rw [h3]
    apply countP_map_eq_length_filter
    intro k hk
    cases hse : se && optimizedVersionExists probe k
    · cases hpc : (if ul then procL k else procD k) with
      | ok u => simp [processItem, hse, hpc, isErrored, exceptOk]
      | error e => simp [processItem, hse, hpc, isErrored, exceptOk]
    · simp [processItem, hse, isErrored]
  · rw [h1, h2, h3, countP_outcomes_partition]
    simp

theorem bulk_error_containment_witness :
    0 < 2 ∧
    ((runBulk (fun _ => Except.error ())
        (fun k => if k = "b.jpg".toList then Except.error () else Except.ok ())
        (fun _ => Except.ok ()) true false 2 500
        ["a.jpg".toList, "b.jpg".toList, "c.jpg".toList]).errors =
      (["a.jpg".toList, "b.jpg".toList, "c.jpg".toList].filter
        (fun k => !(true && optimizedVersionExists (fun _ => Except.error ()) k) &&
          !(exceptOk (if false then Except.ok () else
            (fun k => if k = "b.jpg".toList then Except.error () else Except.ok ()) k)))).length ∧
      (runBulk (fun _ => Except.error ())
        (fun k => if k = "b.jpg".toList then Except.error () else Except.ok ())
        (fun _ => Except.ok ()) true false 2 500
        ["a.jpg".toList, "b.jpg".toList, "c.jpg".toList]).processed +
      (runBulk (fun _ => Except.error ())
        (fun k => if k = "b.jpg".toList then Except.error () else Except.ok ())
        (fun _ => Except.ok ()) true false 2 500
        ["a.jpg".toList, "b.jpg".toList, "c.jpg".toList]).skipped +
      (runBulk (fun _ => Except.error ())
        (fun k => if k = "b.jpg".toList then Except.error () else Except.ok ())
        (fun _ => Except.ok ()) true false 2 500
        ["a.jpg".toList, "b.jpg".toList, "c.jpg".toList]).errors =
      ["a.jpg".toList, "b.jpg".toList, "c.jpg".toList].length) :=
  ⟨by decide,
    bulk_error_containment (fun _ => Except.error ())
      (fun k => if k = "b.jpg".toList then Except.error () else Except.ok ())
      (fun _ => Except.ok ()) true false 2 500
      ["a.jpg".toList, "b.jpg".toList, "c.jpg".toList] (by decide)⟩

end ImageOptimizer
